import Mathlib

/-!
Verification of the flowfield-tiles core: the integration-field wavefront
solver (`src/flowfields/integration_fields.rs`), the sector coordinate
mapping (`src/flowfields/sectors.rs`) and the sector-neighbour derivation.

Machine integers are modelled as `Nat` with an explicit `% 65536` at the one
`u16` addition the solver performs (release-mode wrapping semantics).  World
coordinates (`f32` in the source) are modelled as exact rationals `ℚ`; every
concrete instance proved below only involves values on which `f32`
arithmetic is exact.

`FIELD_RESOLUTION = 10`, `SECTOR_RESOLUTION = 10`, impassable cost `255`,
`UNREACHED = 65535 = u16::MAX`.
-/

/-- A field cell `(column, row)`, both components in `[0, FIELD_RESOLUTION)`. -/
abbrev Cell : Type := Fin 10 × Fin 10

/-- The 10x10 grid of 16-bit integration values, addressed `(column, row)`. -/
abbrev Field10 : Type := Cell → ℕ

/-- The 10x10 grid of 8-bit cost values, addressed `(column, row)`. -/
abbrev CostF : Type := Cell → ℕ

/-- The wavefront queue: pairs of a cell and the integration cost recorded
when the cell was enqueued. -/
abbrev Queue : Type := List (Cell × ℕ)

namespace Ordinal10

/-- Modelled from the spec: `Ordinal::get_cell_neighbours` is code of this
repository that is not under `src/` (only its callers in
`integration_fields.rs` are).  Spec 4.1: the neighbours of `(col, row)` are
returned in (North, East, South, West) order, `N = (col, row-1)`,
`E = (col+1, row)`, `S = (col, row+1)`, `W = (col-1, row)`, with
out-of-bounds candidates silently omitted. -/
def get_cell_neighbours (c : Cell) : List Cell :=
  (if h : 1 ≤ c.2.val then [(c.1, ⟨c.2.val - 1, by omega⟩)] else []) ++
  (if h : c.1.val + 1 < 10 then [(⟨c.1.val + 1, h⟩, c.2)] else []) ++
  (if h : c.2.val + 1 < 10 then [(c.1, ⟨c.2.val + 1, h⟩)] else []) ++
  (if h : 1 ≤ c.1.val then [(⟨c.1.val - 1, by omega⟩, c.2)] else [])

end Ordinal10

namespace CostFields

/-- Modelled from the spec: `CostFields::default` (the `cost_fields.rs`
module is not under `src/`).  Spec 4.2: all cells have cost `1`. -/
def default : CostF := fun _ => 1

/-- Modelled from the spec: `CostFields::set_grid_value` overwrites a single
cell.  The spec's `IndexOutOfBounds` failure is not modelled here because the
index is already an in-bounds `Cell`; every use below is in bounds. -/
def set_grid_value (f : CostF) (value : ℕ) (c : Cell) : CostF :=
  Function.update f c value

end CostFields

namespace IntegrationFields

/-- `IntegrationFields::set_grid_value`, lines 73-78: panics (`none`) when
`column >= 10` or `row >= 10`, otherwise overwrites the cell. -/
def set_grid_value (f : Field10) (value : ℕ) (column row : ℕ) :
    Option Field10 :=
  if h : column < 10 ∧ row < 10 then
    some (Function.update f (⟨column, h.1⟩, ⟨row, h.2⟩) value)
  else
    none

/-- The double loop of `IntegrationFields::reset` (lines 81-85): every cell
of the grid is overwritten with `u16::MAX`; each of these writes is in
bounds, so none of them can panic. -/
def clearAll (f : Field10) : Field10 :=
  (List.finRange 10).foldl
    (fun acc i =>
      (List.finRange 10).foldl
        (fun acc2 j => Function.update acc2 (i, j) 65535) acc) f

/-- `IntegrationFields::reset`, lines 80-87: set every cell to `u16::MAX`,
then set the `source` cell to `0`.  The final write panics when `source` is
out of bounds; the panic (`Except.error`) carries the field contents at the
moment of the panic. -/
def reset (f : Field10) (source : ℕ × ℕ) : Except Field10 Field10 :=
  let cleared := clearAll f
  match set_grid_value cleared 0 source.1 source.2 with
  | some f2 => Except.ok f2
  | none => Except.error cleared

/-- The inner relaxation loop shared by lines 100-111 and lines 125-136:
iterate over a neighbour list, skip impassable cells, compute
`int_cost = cell_cost as u16 + prev` (u16 addition, hence `% 65536`), and on
a strict improvement write the cell and push it onto the queue. -/
def relaxList (cost : CostF) (v : ℕ) :
    List Cell → Field10 → Queue → Field10 × Queue
  | [], f, nx => (f, nx)
  | n :: rest, f, nx =>
    let cell_cost := cost n
    if cell_cost ≠ 255 then
      let int_cost := (cell_cost + v) % 65536
      if int_cost < f n then
        relaxList cost v rest (Function.update f n int_cost)
          (nx ++ [(n, int_cost)])
      else
        relaxList cost v rest f nx
    else
      relaxList cost v rest f nx

/-- One pass of `process_neighbours` (lines 122-137): drain the queue,
relaxing the neighbours of each entry with the integration cost recorded at
enqueue time, accumulating the next pass. -/
def runPass (cost : CostF) : Queue → Field10 → Queue → Field10 × Queue
  | [], f, nx => (f, nx)
  | (c, v) :: rest, f, nx =>
    let step := relaxList cost v (Ordinal10.get_cell_neighbours c) f nx
    runPass cost rest step.1 step.2

/-- `process_neighbours` (lines 115-141): run a pass over the queue and
recurse while the next pass is non-empty.  The recursion of the source is
modelled with explicit fuel; `calculate_fields` supplies fuel proven
sufficient (each non-final pass strictly decreases the field total). -/
def process_neighbours (cost : CostF) : ℕ → Field10 → Queue → Field10
  | 0, f, _ => f
  | fuel + 1, f, q =>
    let step := runPass cost q f []
    if step.2 = [] then step.1
    else process_neighbours cost fuel step.1 step.2

/-- Sum of all stored integration values; the termination measure. -/
def totalSum (f : Field10) : ℕ := ∑ c : Cell, f c

/-- One wavefront pass as a state transformer, for stating termination. -/
def stepPass (cost : CostF) (st : Field10 × Queue) : Field10 × Queue :=
  runPass cost st.2 st.1 []

/-- `IntegrationFields::calculate_fields` (lines 90-142): relax the
neighbours of `source` using its stored integration value (skipping
everything when the source cell is impassable), then run the pass-by-pass
wavefront to completion. -/
def calculate_fields (f : Field10) (source : Cell) (cost : CostF) :
    Field10 :=
  let current_int_value := f source
  let current_cell_cost_field := cost source
  let start :=
    if current_cell_cost_field ≠ 255 then
      relaxList cost current_int_value
        (Ordinal10.get_cell_neighbours source) f []
    else
      (f, [])
  process_neighbours cost (totalSum start.1 + 1) start.1 start.2

end IntegrationFields

/-!
Walks on the 10x10 grid.  A walk from a cell `a` is described by the list of
the destination cells of its successive steps; each step moves to a
4-connected neighbour whose cost is not `255`.  Its cost is the sum of the
costs of the destination cells, matching the solver's accumulation (the
start cell contributes nothing).
-/

/-- The successive destination cells `l` form a valid walk from `a`: each
step goes to a 4-connected neighbour that is not impassable. -/
def walkOk (cost : CostF) : Cell → List Cell → Prop
  | _, [] => True
  | a, b :: r =>
    b ∈ Ordinal10.get_cell_neighbours a ∧ cost b ≠ 255 ∧ walkOk cost b r

/-- The final cell of the walk from `a` with destination list `l`. -/
def wEnd (a : Cell) (l : List Cell) : Cell := l.getLastD a

/-- The cost of a walk: the sum of the costs of its destination cells. -/
def wCost (cost : CostF) (l : List Cell) : ℕ := (l.map cost).sum

/-- `c` is reachable from `s`: some valid walk from `s` ends at `c`; a
non-trivial walk additionally requires the start cell itself to be
passable (the solver never leaves an impassable source). -/
def Reaches (cost : CostF) (s c : Cell) : Prop :=
  ∃ l, walkOk cost s l ∧ (l ≠ [] → cost s ≠ 255) ∧ wEnd s l = c

/-- The set of costs of valid walks from `s` to `c`.  The claim's
"minimum over all such paths of the sum of destination-cell costs" is the
least element of this set. -/
def reachCosts (cost : CostF) (s c : Cell) : Set ℕ :=
  {n | ∃ l, walkOk cost s l ∧ (l ≠ [] → cost s ≠ 255) ∧ wEnd s l = c ∧
    wCost cost l = n}

/-!
Invariants of the wavefront relaxation.  `entryOk` justifies one queue entry
by a duplicate-free walk whose every prefix dominates the current field;
`Basic` records the facts true of the field throughout; `CleanQ` says every
relaxable edge is protected by a pending queue entry; `CleanX` is `CleanQ`
with a single allowance for the entry currently being processed.
-/

/-- A queue entry `(cell, value)` is justified: some duplicate-free valid
walk from `s` ends at the cell with exactly that cost, and the current field
is at or below the walk's running cost at every intermediate cell. -/
def entryOk (cost : CostF) (s : Cell) (f : Field10) (p : Cell × ℕ) : Prop :=
  ∃ l, walkOk cost s l ∧ wEnd s l = p.1 ∧ wCost cost l = p.2 ∧
    (s :: l).Nodup ∧
    ∀ t1 t2, l = t1 ++ t2 → f (wEnd s t1) ≤ wCost cost t1

/-- Facts maintained by every relaxation step: the source stays `0`, values
never exceed `65535`, and every other non-`65535` value is the exact cost of
some valid walk from the source to that cell. -/
structure Basic (cost : CostF) (s : Cell) (f : Field10) : Prop where
  src : f s = 0
  bound : ∀ c, f c ≤ 65535
  sound : ∀ c, c ≠ s → f c ≠ 65535 →
    ∃ l, l ≠ [] ∧ walkOk cost s l ∧ wEnd s l = c ∧ wCost cost l = f c

/-- Every entry of the queue is justified. -/
def QOk (cost : CostF) (s : Cell) (f : Field10) (q : Queue) : Prop :=
  ∀ p ∈ q, entryOk cost s f p

/-- Every touched cell either has all its passable neighbours already
relaxed, or sits in the queue with its current value. -/
def CleanQ (cost : CostF) (s : Cell) (f : Field10) (q : Queue) : Prop :=
  ∀ c, f c ≠ 65535 → ∀ n ∈ Ordinal10.get_cell_neighbours c, cost n ≠ 255 →
    f n ≤ cost n + f c ∨ (c, f c) ∈ q

/-- `CleanQ` weakened by an allowance for the entry `(c0, v)` that the pass
is currently processing. -/
def CleanX (cost : CostF) (s : Cell) (f : Field10) (q : Queue) (c0 : Cell)
    (v : ℕ) : Prop :=
  ∀ c, f c ≠ 65535 → ∀ n ∈ Ordinal10.get_cell_neighbours c, cost n ≠ 255 →
    f n ≤ cost n + f c ∨ (c, f c) ∈ q ∨ (c = c0 ∧ f c = v)

/-- Final relaxedness: no passable edge can improve any touched cell. -/
def Relaxed (cost : CostF) (f : Field10) : Prop :=
  ∀ c, f c ≠ 65535 → ∀ n ∈ Ordinal10.get_cell_neighbours c, cost n ≠ 255 →
    f n ≤ cost n + f c

/-- The field contents after a successful `reset(s)`: `0` at the source and
`65535` everywhere else (this is exactly the `Except.ok` payload proved in
`claim_C5_reset`). -/
def resetField (s : Cell) : Field10 := fun c => if c = s then 0 else 65535

/-- The obstacle cost field of the spec's complex scenario and of the repo's
`complex_field` test: default costs with fourteen cells set to `255`. -/
def complexCost : CostF :=
  [((5 : Fin 10), (6 : Fin 10)), (5, 7), (6, 9), (6, 8), (6, 7), (6, 4),
    (7, 9), (7, 4), (8, 4), (9, 4), (1, 2), (1, 1), (2, 1), (2, 2)].foldl
    (fun f c => CostFields.set_grid_value f 255 c) CostFields.default

/-- World positions: the source's `Vec3` (`f32` components) modelled as
exact rationals `(x, y, z)`; the `y` component is ignored throughout. -/
abbrev Vec3Q : Type := ℚ × ℚ × ℚ

/-- `get_sector_id_from_xyz` (sectors.rs lines 240-265): translate to a
top-left origin by adding half the map dimension (`u32` division, then
cast), divide by `SECTOR_RESOLUTION`, floor, cast to `u32` (saturating at
zero for negative values, modelled by `Int.toNat`; saturation at `u32::MAX`
is immaterial because the clamp that follows fires in exactly the same
cases), and clamp each component to the last sector. -/
def get_sector_id_from_xyz (position : Vec3Q)
    (map_x_dimension map_z_dimension : ℕ) : ℕ × ℕ :=
  let x_sector_count := map_x_dimension / 10
  let z_sector_count := map_z_dimension / 10
  let x_origin := position.1 + ((map_x_dimension / 2 : ℕ) : ℚ)
  let z_origin := position.2.2 + ((map_z_dimension / 2 : ℕ) : ℚ)
  let column := (⌊x_origin / 10⌋).toNat
  let row := (⌊z_origin / 10⌋).toNat
  (if x_sector_count ≤ column then x_sector_count - 1 else column,
   if z_sector_count ≤ row then z_sector_count - 1 else row)

/-- `get_xyz_at_sector_top_left_from_sector_id` (lines 297-305): `i32`
arithmetic (exact for dimensions below `2^31`), then cast to `f32`. -/
def get_xyz_at_sector_top_left_from_sector_id (sector_id : ℕ × ℕ)
    (map_x_dimension map_z_dimension : ℕ) : Vec3Q :=
  (((((sector_id.1 * 10 : ℕ) : ℤ) - ((map_x_dimension / 2 : ℕ) : ℤ)) : ℚ), 0,
   ((((sector_id.2 * 10 : ℕ) : ℤ) - ((map_z_dimension / 2 : ℕ) : ℤ)) : ℚ))

/-- `get_field_cell_from_xyz` (lines 266-285): distance from the sector's
top-left corner, absolute value, floor, cast to `usize`, clamped to the
last field cell. -/
def get_field_cell_from_xyz (position : Vec3Q) (sector_id : ℕ × ℕ)
    (map_x_dimension map_z_dimension : ℕ) : ℕ × ℕ :=
  let origin_of_sector := get_xyz_at_sector_top_left_from_sector_id
    sector_id map_x_dimension map_z_dimension
  let column := (⌊|origin_of_sector.1 - position.1|⌋).toNat
  let row := (⌊|origin_of_sector.2.2 - position.2.2|⌋).toNat
  (if 10 ≤ column then 9 else column, if 10 ≤ row then 9 else row)

/-- `get_sector_and_field_cell_from_xyz` (lines 287-295). -/
def get_sector_and_field_cell_from_xyz (position : Vec3Q)
    (map_x_dimension map_z_dimension : ℕ) : (ℕ × ℕ) × (ℕ × ℕ) :=
  let sector_id := get_sector_id_from_xyz position map_x_dimension
    map_z_dimension
  let field_cell := get_field_cell_from_xyz position sector_id
    map_x_dimension map_z_dimension
  (sector_id, field_cell)

/-- `get_xyz_from_field_cell_within_sector` (lines 319-331): top-left corner
plus `(field + 1) * 0.5` on each axis. -/
def get_xyz_from_field_cell_within_sector (sector_id field_id : ℕ × ℕ)
    (map_x_dimension map_z_dimension : ℕ) : Vec3Q :=
  let sector_xyz := get_xyz_at_sector_top_left_from_sector_id sector_id
    map_x_dimension map_z_dimension
  let x_offset := ((field_id.1 + 1 : ℕ) : ℚ) * (1 / 2)
  let z_offset := ((field_id.2 + 1 : ℕ) : ℚ) * (1 / 2)
  (sector_xyz.1 + x_offset, 0, sector_xyz.2.2 + z_offset)

/-- The sector-coordinate formula exactly as the C8 claim words it:
`floor((position + dim/2) / 10)` clamped above to `count - 1`, as an
integer (no saturation at zero). -/
def spec_sector_coord (p : ℚ) (dim : ℕ) : ℤ :=
  min ⌊(p + ((dim / 2 : ℕ) : ℚ)) / 10⌋ (((dim / 10 : ℕ) : ℤ) - 1)

/-- The four cardinal directions of the source's `Ordinal` enum (named
`OrdinalDir` here to avoid clashing with Mathlib's ordinals). -/
inductive OrdinalDir : Type
  | North
  | East
  | South
  | West
  deriving DecidableEq, Repr

/-- Modelled from the spec: `Ordinal::get_sector_neighbours_with_ordinal` is
code of this repository that is not under `src/` (only its caller
`get_ordinal_and_ids_of_neighbouring_sectors` in sectors.rs and its tests
are).  Spec 4.1: same shape as the cell version with the sector grid as
bounds: candidates in (North, East, South, West) order, filtered so results
lie in `[0, column_count) x [0, row_count)`. -/
def get_sector_neighbours_with_ordinal (sector_id : ℕ × ℕ)
    (map_x_dimension map_z_dimension : ℕ) : List (OrdinalDir × (ℕ × ℕ)) :=
  let column_count := map_x_dimension / 10
  let row_count := map_z_dimension / 10
  (if 1 ≤ sector_id.2 ∧ sector_id.1 < column_count ∧
      sector_id.2 - 1 < row_count then
    [(OrdinalDir.North, (sector_id.1, sector_id.2 - 1))] else []) ++
  (if sector_id.1 + 1 < column_count ∧ sector_id.2 < row_count then
    [(OrdinalDir.East, (sector_id.1 + 1, sector_id.2))] else []) ++
  (if sector_id.2 + 1 < row_count ∧ sector_id.1 < column_count then
    [(OrdinalDir.South, (sector_id.1, sector_id.2 + 1))] else []) ++
  (if 1 ≤ sector_id.1 ∧ sector_id.1 - 1 < column_count ∧
      sector_id.2 < row_count then
    [(OrdinalDir.West, (sector_id.1 - 1, sector_id.2))] else [])

/-- `get_ordinal_and_ids_of_neighbouring_sectors` (sectors.rs lines
190-237): delegates to the Ordinal helper. -/
def get_ordinal_and_ids_of_neighbouring_sectors (sector_id : ℕ × ℕ)
    (map_x_dimension map_z_dimension : ℕ) : List (OrdinalDir × (ℕ × ℕ)) :=
  get_sector_neighbours_with_ordinal sector_id map_x_dimension map_z_dimension

namespace Ordinal10

/-- Membership in the neighbour list is exactly 4-adjacency on the grid. -/
theorem mem_get_cell_neighbours (c n : Cell) :
    n ∈ get_cell_neighbours c ↔
      ((n.1 = c.1 ∧ n.2.val + 1 = c.2.val) ∨
       (n.1.val = c.1.val + 1 ∧ n.2 = c.2) ∨
       (n.1 = c.1 ∧ n.2.val = c.2.val + 1) ∨
       (n.1.val + 1 = c.1.val ∧ n.2 = c.2)) := by
  obtain ⟨⟨c1, hc1⟩, ⟨c2, hc2⟩⟩ := c
  obtain ⟨⟨n1, hn1⟩, ⟨n2, hn2⟩⟩ := n
  simp only [get_cell_neighbours, List.mem_append]
  constructor
  · intro h
    rcases h with ((h | h) | h) | h <;>
    · split at h <;> simp_all [Prod.ext_iff, Fin.ext_iff] <;> omega
  · intro h
    rcases h with h | h | h | h
    · left; left; left
      simp only [Prod.ext_iff, Fin.ext_iff] at h
      rw [dif_pos (by omega)]
      simp [Prod.ext_iff, Fin.ext_iff]; omega
    · left; left; right
      simp only [Prod.ext_iff, Fin.ext_iff] at h
      rw [dif_pos (by omega)]
      simp [Prod.ext_iff, Fin.ext_iff]; omega
    · left; right
      simp only [Prod.ext_iff, Fin.ext_iff] at h
      rw [dif_pos (by omega)]
      simp [Prod.ext_iff, Fin.ext_iff]; omega
    · right
      simp only [Prod.ext_iff, Fin.ext_iff] at h
      rw [dif_pos (by omega)]
      simp [Prod.ext_iff, Fin.ext_iff]; omega

/-- A cell is never its own neighbour. -/
theorem self_not_mem_get_cell_neighbours (c : Cell) :
    c ∉ get_cell_neighbours c := by
  rw [mem_get_cell_neighbours]
  push_neg
  refine ⟨fun _ => by omega, fun h => absurd h (by omega), fun _ => by omega,
    fun h => absurd h (by omega)⟩

end Ordinal10

namespace IntegrationFields

theorem foldl_row_apply (i : Fin 10) (js : List (Fin 10)) (acc : Field10)
    (c : Cell) :
    (js.foldl (fun a j => Function.update a (i, j) 65535) acc) c
      = if c.1 = i ∧ c.2 ∈ js then 65535 else acc c := by
  induction js generalizing acc with
  | nil => simp
  | cons j rest ih =>
    rw [List.foldl_cons, ih]
    simp only [Function.update_apply, List.mem_cons]
    rcases c with ⟨c1, c2⟩
    by_cases h1 : c1 = i <;> by_cases h2 : c2 = j <;>
      by_cases h3 : c2 ∈ rest <;>
      simp_all [Prod.ext_iff]

theorem foldl_grid_apply (is : List (Fin 10)) (acc : Field10) (c : Cell) :
    (is.foldl
        (fun a i =>
          (List.finRange 10).foldl
            (fun a2 j => Function.update a2 (i, j) 65535) a) acc) c
      = if c.1 ∈ is then 65535 else acc c := by
  induction is generalizing acc with
  | nil => simp
  | cons i rest ih =>
    rw [List.foldl_cons, ih, foldl_row_apply]
    by_cases h1 : c.1 = i <;> by_cases h2 : c.1 ∈ rest <;>
      simp_all [List.mem_finRange]

/-- The reset loop really does overwrite every cell with `u16::MAX`. -/
theorem clearAll_apply (f : Field10) (c : Cell) : clearAll f c = 65535 := by
  rw [clearAll, foldl_grid_apply]
  simp [List.mem_finRange]

theorem reset_ok (f : Field10) (source : ℕ × ℕ) (h1 : source.1 < 10)
    (h2 : source.2 < 10) :
    reset f source
      = Except.ok
          (Function.update (clearAll f) (⟨source.1, h1⟩, ⟨source.2, h2⟩) 0) := by
  rw [reset, set_grid_value, dif_pos ⟨h1, h2⟩]

end IntegrationFields

/-- C5: for every integration field and every in-bounds source `s`, after
`reset(s)` the call succeeds, the source cell holds `0` and every other
cell holds `65535`. -/
theorem claim_C5_reset (f : Field10) (source : ℕ × ℕ) (h1 : source.1 < 10)
    (h2 : source.2 < 10) :
    ∃ g, IntegrationFields.reset f source = Except.ok g ∧
      g (⟨source.1, h1⟩, ⟨source.2, h2⟩) = 0 ∧
      ∀ c : Cell, c ≠ (⟨source.1, h1⟩, ⟨source.2, h2⟩) → g c = 65535 := by
  refine ⟨_, IntegrationFields.reset_ok f source h1 h2, ?_, ?_⟩
  · simp
  · intro c hc
    rw [Function.update_apply, if_neg hc, IntegrationFields.clearAll_apply]

/-- Witness for C5 at a concrete field and source. -/
theorem claim_C5_reset_witness :
    ∃ g, IntegrationFields.reset (fun _ => 7) (3, 4) = Except.ok g ∧
      g (⟨3, by decide⟩, ⟨4, by decide⟩) = 0 ∧
      ∀ c : Cell, c ≠ (⟨3, by decide⟩, ⟨4, by decide⟩) → g c = 65535 :=
  claim_C5_reset (fun _ => 7) (3, 4) (by decide) (by decide)

/-- C10: `reset` is not atomic on error.  For every out-of-bounds source the
call fails, but only after the whole grid has already been overwritten with
`65535`: the error state is the all-`65535` field, so the prior contents are
lost. -/
theorem claim_C10_reset_not_atomic (f : Field10) (source : ℕ × ℕ)
    (h : 10 ≤ source.1 ∨ 10 ≤ source.2) :
    ∃ g, IntegrationFields.reset f source = Except.error g ∧
      ∀ c : Cell, g c = 65535 := by
  refine ⟨IntegrationFields.clearAll f, ?_, IntegrationFields.clearAll_apply f⟩
  rw [IntegrationFields.reset, IntegrationFields.set_grid_value,
    dif_neg (by omega)]

/-- Witness for C10 at a concrete field and out-of-bounds source. -/
theorem claim_C10_reset_not_atomic_witness :
    ∃ g, IntegrationFields.reset (fun _ => 7) (10, 0) = Except.error g ∧
      ∀ c : Cell, g c = 65535 :=
  claim_C10_reset_not_atomic (fun _ => 7) (10, 0) (by decide)

theorem wEnd_nil (a : Cell) : wEnd a [] = a := rfl

theorem wEnd_concat (a n : Cell) (l : List Cell) : wEnd a (l ++ [n]) = n :=
  List.getLastD_concat _ _ _

theorem wEnd_append (a : Cell) (l1 l2 : List Cell) :
    wEnd a (l1 ++ l2) = wEnd (wEnd a l1) l2 := by
  rcases List.eq_nil_or_concat l2 with h | ⟨t, b, h⟩
  · subst h; simp [wEnd]
  · subst h
    rw [List.concat_eq_append, ← List.append_assoc, wEnd_concat, wEnd_concat]

theorem wCost_append (cost : CostF) (l1 l2 : List Cell) :
    wCost cost (l1 ++ l2) = wCost cost l1 + wCost cost l2 := by
  simp [wCost]

theorem walkOk_append (cost : CostF) (a : Cell) (l1 l2 : List Cell) :
    walkOk cost a (l1 ++ l2) ↔ walkOk cost a l1 ∧ walkOk cost (wEnd a l1) l2 := by
  induction l1 generalizing a with
  | nil => simp [walkOk, wEnd]
  | cons b r ih =>
    have hw : wEnd a (b :: r) = wEnd b r := by
      rcases List.eq_nil_or_concat r with h | ⟨t, x, h⟩
      · subst h; rfl
      · subst h
        rw [List.concat_eq_append, ← List.cons_append, wEnd_concat, wEnd_concat]
    simp only [List.cons_append, walkOk, List.append_eq]
    rw [ih b, hw]
    tauto

theorem walkOk_concat (cost : CostF) (a n : Cell) (l : List Cell) :
    walkOk cost a (l ++ [n]) ↔
      walkOk cost a l ∧ n ∈ Ordinal10.get_cell_neighbours (wEnd a l) ∧
        cost n ≠ 255 := by
  rw [walkOk_append]
  simp [walkOk]

theorem walkOk_cells (cost : CostF) :
    ∀ (l : List Cell) (a : Cell), walkOk cost a l → ∀ x ∈ l, cost x ≠ 255 := by
  intro l
  induction l with
  | nil => intro a _ x hx; simp at hx
  | cons b r ih =>
    intro a h x hx
    rcases h with ⟨_, hb, hr⟩
    rcases List.mem_cons.mp hx with rfl | hx
    · exact hb
    · exact ih b hr x hx

/-- Splitting off a duplicate occurrence from a list that is not `Nodup`. -/
theorem exists_dup_split {α : Type} :
    ∀ (l : List α), ¬ l.Nodup → ∃ a t1 t2 t3, l = t1 ++ a :: t2 ++ a :: t3 := by
  intro l
  induction l with
  | nil => intro h; exact absurd List.nodup_nil h
  | cons x t ih =>
    intro h
    rw [List.nodup_cons] at h
    push_neg at h
    by_cases hx : x ∈ t
    · obtain ⟨u, w, rfl⟩ := List.append_of_mem hx
      exact ⟨x, [], u, w, rfl⟩
    · obtain ⟨a, t1, t2, t3, rfl⟩ := ih (h hx)
      exact ⟨a, x :: t1, t2, t3, rfl⟩

/-- Any valid walk can be replaced by a valid walk with the same endpoints,
no larger cost, and no repeated cell (including the start cell). -/
theorem walk_prune (cost : CostF) (s : Cell) :
    ∀ (l : List Cell), walkOk cost s l →
      ∃ l2, walkOk cost s l2 ∧ wEnd s l2 = wEnd s l ∧
        wCost cost l2 ≤ wCost cost l ∧ (s :: l2).Nodup := by
  suffices h : ∀ (k : ℕ) (l : List Cell), l.length ≤ k → walkOk cost s l →
      ∃ l2, walkOk cost s l2 ∧ wEnd s l2 = wEnd s l ∧
        wCost cost l2 ≤ wCost cost l ∧ (s :: l2).Nodup from
    fun l hok => h l.length l (le_refl _) hok
  intro k
  induction k with
  | zero =>
    intro l hlen hok
    have hnil : l = [] := List.eq_nil_of_length_eq_zero (by omega)
    subst hnil
    exact ⟨[], trivial, rfl, le_refl _, by simp⟩
  | succ k ih =>
    intro l hlen hok
    by_cases hdup : (s :: l).Nodup
    · exact ⟨l, hok, rfl, le_refl _, hdup⟩
    obtain ⟨a, t1, t2, t3, hsplit⟩ := exists_dup_split (s :: l) hdup
    rcases t1 with _ | ⟨x, t1'⟩
    · -- the start cell recurs: drop everything up to its last listed copy
      rw [List.nil_append] at hsplit
      obtain ⟨ha, hl⟩ := List.cons.inj hsplit
      subst ha
      have hsp : l = (t2 ++ [s]) ++ t3 := by simp [hl]
      rw [hsp, walkOk_append] at hok
      obtain ⟨hA, hT3⟩ := hok
      rw [wEnd_concat] at hT3
      have hlen3 : t3.length ≤ k := by
        rw [hsp] at hlen; simp at hlen; omega
      obtain ⟨l2, h1, h2, h3, h4⟩ := ih t3 hlen3 hT3
      refine ⟨l2, h1, ?_, ?_, h4⟩
      · rw [h2, hsp, wEnd_append, wEnd_concat]
      · calc wCost cost l2 ≤ wCost cost t3 := h3
          _ ≤ wCost cost l := by rw [hsp, wCost_append]; omega
    · -- an interior cell recurs: splice out the loop between its copies
      obtain ⟨ha, hl⟩ := List.cons.inj hsplit
      subst ha
      have hsp : l = (t1' ++ [a]) ++ ((t2 ++ [a]) ++ t3) := by simp [hl]
      rw [hsp, walkOk_append] at hok
      obtain ⟨hA, hRest⟩ := hok
      rw [wEnd_concat, walkOk_append] at hRest
      obtain ⟨hMid, hT3⟩ := hRest
      rw [wEnd_concat] at hT3
      have hok2 : walkOk cost s ((t1' ++ [a]) ++ t3) := by
        rw [walkOk_append, wEnd_concat]
        exact ⟨hA, hT3⟩
      have hlen2 : ((t1' ++ [a]) ++ t3).length ≤ k := by
        rw [hsp] at hlen; simp at hlen ⊢; omega
      obtain ⟨l2, h1, h2, h3, h4⟩ := ih _ hlen2 hok2
      refine ⟨l2, h1, ?_, ?_, h4⟩
      · rw [h2, hsp, wEnd_append, wEnd_concat, wEnd_append, wEnd_concat,
          wEnd_append, wEnd_concat]
      · rw [hsp]
        simp only [wCost_append] at h3 ⊢
        omega

theorem entryOk_mono (cost : CostF) (s : Cell) (f f2 : Field10)
    (p : Cell × ℕ) (hle : ∀ x, f2 x ≤ f x) (h : entryOk cost s f p) :
    entryOk cost s f2 p := by
  obtain ⟨l, h1, h2, h3, h4, h5⟩ := h
  exact ⟨l, h1, h2, h3, h4, fun t1 t2 ht => le_trans (hle _) (h5 t1 t2 ht)⟩

theorem entryOk_dom (cost : CostF) (s : Cell) (f : Field10) (p : Cell × ℕ)
    (h : entryOk cost s f p) : f p.1 ≤ p.2 := by
  obtain ⟨l, _, h2, h3, _, h5⟩ := h
  have := h5 l [] (by simp)
  rw [h2] at this
  rw [← h3]
  exact this

theorem entryOk_src (cost : CostF) (s : Cell) (f : Field10) (p : Cell × ℕ)
    (h : entryOk cost s f p) : f s = 0 := by
  obtain ⟨l, _, _, _, _, h5⟩ := h
  have := h5 [] l (by simp)
  simpa [wEnd, wCost] using this

/-- Justified entry values are at most `99 * 254`: the walk is
duplicate-free, so it has at most `99` steps, each costing at most `254`. -/
theorem entryOk_val_le (cost : CostF) (s : Cell) (f : Field10) (p : Cell × ℕ)
    (hcost : ∀ c, cost c ≤ 255) (h : entryOk cost s f p) : p.2 ≤ 25146 := by
  obtain ⟨l, h1, _, h3, h4, _⟩ := h
  have hlen : l.length ≤ 99 := by
    have hcard : (s :: l).length ≤ Fintype.card Cell := h4.length_le_card
    have : Fintype.card Cell = 100 := by simp [Fintype.card_prod]
    rw [this] at hcard
    simpa using hcard
  have heach : ∀ x ∈ l.map cost, x ≤ 254 := by
    intro x hx
    obtain ⟨a, ha, rfl⟩ := List.mem_map.mp hx
    have h255 := walkOk_cells cost l s h1 a ha
    have := hcost a
    omega
  have hsum : (l.map cost).sum ≤ (l.map cost).length • 254 :=
    List.sum_le_card_nsmul _ _ heach
  rw [← h3]
  simp only [wCost]
  have : (l.map cost).length = l.length := List.length_map _ _
  calc (l.map cost).sum ≤ (l.map cost).length • 254 := hsum
    _ = (l.map cost).length * 254 := by rw [smul_eq_mul]
    _ ≤ 99 * 254 := by rw [this]; exact Nat.mul_le_mul_right _ hlen
    _ = 25146 := by norm_num

theorem totalSum_le_of_le (f g : Field10) (h : ∀ x, g x ≤ f x) :
    IntegrationFields.totalSum g ≤ IntegrationFields.totalSum f :=
  Finset.sum_le_sum fun c _ => h c

theorem totalSum_update_lt (f : Field10) (n : Cell) (w : ℕ) (h : w < f n) :
    IntegrationFields.totalSum (Function.update f n w)
      < IntegrationFields.totalSum f := by
  unfold IntegrationFields.totalSum
  rw [Finset.sum_update_of_mem (Finset.mem_univ n)]
  rw [← Finset.add_sum_erase Finset.univ f (Finset.mem_univ n)]
  rw [Finset.sdiff_singleton_eq_erase]
  omega

/-- The effect of one successful relaxation write: updating the improved
neighbour and appending it to the next queue preserves every invariant. -/
theorem relax_write_step (cost : CostF) (s : Cell) (c0 : Cell) (v : ℕ)
    (r : Queue) (f : Field10) (nx : Queue) (n : Cell)
    (hmem : n ∈ Ordinal10.get_cell_neighbours c0)
    (hpass : cost n ≠ 255)
    (hB : Basic cost s f) (hQ : QOk cost s f (r ++ nx))
    (hE : entryOk cost s f (c0, v))
    (hC : CleanX cost s f (r ++ nx) c0 v)
    (hlt : cost n + v < f n) :
    (∀ x, Function.update f n (cost n + v) x ≤ f x) ∧
    Basic cost s (Function.update f n (cost n + v)) ∧
    QOk cost s (Function.update f n (cost n + v))
      (r ++ (nx ++ [(n, cost n + v)])) ∧
    entryOk cost s (Function.update f n (cost n + v)) (c0, v) ∧
    CleanX cost s (Function.update f n (cost n + v))
      (r ++ (nx ++ [(n, cost n + v)])) c0 v := by
  set w := cost n + v with hw
  set f2 := Function.update f n w with hf2
  have hle : ∀ x, f2 x ≤ f x := by
    intro x
    by_cases hx : x = n
    · subst hx; rw [hf2, Function.update_same]; exact le_of_lt hlt
    · rw [hf2, Function.update_noteq hx]
  obtain ⟨l, hwk, hend, hcostl, hnd, hdom⟩ := hE
  simp only at hend hcostl
  -- the improved neighbour is a fresh cell: it is not on the justifying walk
  have hnotin : n ∉ s :: l := by
    intro hin
    rcases List.mem_cons.mp hin with rfl | hin
    · rw [hB.src] at hlt; omega
    · obtain ⟨t1, t2, rfl⟩ := List.append_of_mem hin
      have hsp : t1 ++ n :: t2 = (t1 ++ [n]) ++ t2 := by simp
      have hd := hdom (t1 ++ [n]) t2 hsp
      rw [wEnd_concat] at hd
      have hv : wCost cost (t1 ++ [n]) + wCost cost t2 = v := by
        rw [← wCost_append, ← hsp, hcostl]
      omega
  have hns : n ≠ s := fun h => hnotin (h ▸ List.mem_cons_self _ _)
  have hwk2 : walkOk cost s (l ++ [n]) := by
    rw [walkOk_concat, hend]
    exact ⟨hwk, hmem, hpass⟩
  have hend2 : wEnd s (l ++ [n]) = n := wEnd_concat _ _ _
  have hcost2 : wCost cost (l ++ [n]) = w := by
    rw [wCost_append, hcostl]
    simp only [wCost, List.map_cons, List.map_nil, List.sum_cons,
      List.sum_nil, hw]
    omega
  -- the new queue entry is justified by the extended walk
  have hnew : entryOk cost s f2 (n, w) := by
    refine ⟨l ++ [n], hwk2, hend2, hcost2, ?_, ?_⟩
    · have : s :: (l ++ [n]) = (s :: l) ++ [n] := by simp
      rw [this]
      refine List.Nodup.append hnd (by simp) ?_
      intro a ha hb
      rcases List.mem_singleton.mp hb with rfl
      exact hnotin ha
    · intro t1 t2 ht
      rcases List.eq_nil_or_concat t2 with rfl | ⟨t2h, b, rfl⟩
      · rw [List.append_nil] at ht
        subst ht
        rw [wEnd_concat, hf2, Function.update_same, hcost2]
      · rw [List.concat_eq_append, ← List.append_assoc] at ht
        obtain ⟨hl', -⟩ := List.append_inj' ht (by simp)
        exact le_trans (hle _) (hdom t1 t2h hl')
  refine ⟨hle, ?_, ?_, entryOk_mono cost s f f2 _ hle ⟨l, hwk, hend, hcostl, hnd, hdom⟩, ?_⟩
  · -- Basic is preserved
    refine ⟨?_, ?_, ?_⟩
    · rw [hf2, Function.update_noteq (Ne.symm hns), hB.src]
    · intro c
      exact le_trans (hle c) (hB.bound c)
    · intro c hcs hc
      by_cases hcn : c = n
      · subst hcn
        refine ⟨l ++ [c], by simp, hwk2, hend2, ?_⟩
        rw [hcost2, hf2, Function.update_same]
      · rw [hf2, Function.update_noteq hcn] at hc ⊢
        exact hB.sound c hcs hc
  · -- every queue entry, old and new, stays justified
    intro p hp
    rw [← List.append_assoc] at hp
    rcases List.mem_append.mp hp with hp | hp
    · exact entryOk_mono cost s f f2 p hle (hQ p hp)
    · rcases List.mem_singleton.mp hp with rfl
      exact hnew
  · -- cleanliness with the allowance
    intro c hc nb hnb hnbp
    by_cases hcn : c = n
    · subst hcn
      right; left
      rw [hf2, Function.update_same]
      rw [← List.append_assoc]
      exact List.mem_append_right _ (List.mem_singleton.mpr rfl)
    · rw [hf2, Function.update_noteq hcn] at hc ⊢
      rcases hC c hc nb hnb hnbp with h | h | h
      · left
        exact le_trans (hle nb) h
      · right; left
        rw [← List.append_assoc]
        exact List.mem_append_left _ h
      · right; right
        exact h

/-- Processing one queue entry (the inner loop of the pass over the entry's
neighbour list) preserves all invariants, relaxes every passable neighbour
below `cost + v`, only appends to the next queue, and strictly decreases the
field total whenever it appends anything. -/
theorem relaxList_inv (cost : CostF) (s : Cell) (hcost : ∀ c, cost c ≤ 255)
    (c0 : Cell) (v : ℕ) (r : Queue) :
    ∀ (ns : List Cell) (f : Field10) (nx : Queue),
      (∀ n ∈ ns, n ∈ Ordinal10.get_cell_neighbours c0) →
      Basic cost s f →
      QOk cost s f (r ++ nx) →
      entryOk cost s f (c0, v) →
      CleanX cost s f (r ++ nx) c0 v →
      (∀ x, (IntegrationFields.relaxList cost v ns f nx).1 x ≤ f x) ∧
      Basic cost s (IntegrationFields.relaxList cost v ns f nx).1 ∧
      QOk cost s (IntegrationFields.relaxList cost v ns f nx).1
        (r ++ (IntegrationFields.relaxList cost v ns f nx).2) ∧
      entryOk cost s (IntegrationFields.relaxList cost v ns f nx).1 (c0, v) ∧
      CleanX cost s (IntegrationFields.relaxList cost v ns f nx).1
        (r ++ (IntegrationFields.relaxList cost v ns f nx).2) c0 v ∧
      (∀ n ∈ ns, cost n ≠ 255 →
        (IntegrationFields.relaxList cost v ns f nx).1 n ≤ cost n + v) ∧
      (∃ d, (IntegrationFields.relaxList cost v ns f nx).2 = nx ++ d) ∧
      IntegrationFields.totalSum (IntegrationFields.relaxList cost v ns f nx).1
        ≤ IntegrationFields.totalSum f ∧
      ((IntegrationFields.relaxList cost v ns f nx).2 ≠ nx →
        IntegrationFields.totalSum
          (IntegrationFields.relaxList cost v ns f nx).1
          < IntegrationFields.totalSum f) := by
  intro ns
  induction ns with
  | nil =>
    intro f nx _ hB hQ hE hC
    simp only [IntegrationFields.relaxList]
    exact ⟨fun x => le_refl _, hB, hQ, hE, hC, by simp, ⟨[], by simp⟩,
      le_refl _, fun h => absurd rfl h⟩
  | cons n rest ih =>
    intro f nx hsub hB hQ hE hC
    have hsubr : ∀ m ∈ rest, m ∈ Ordinal10.get_cell_neighbours c0 :=
      fun m hm => hsub m (List.mem_cons_of_mem _ hm)
    have hnmem : n ∈ Ordinal10.get_cell_neighbours c0 :=
      hsub n (List.mem_cons_self _ _)
    simp only [IntegrationFields.relaxList]
    by_cases hpass : cost n ≠ 255
    · rw [if_pos hpass]
      have hv : v ≤ 25146 := entryOk_val_le cost s f (c0, v) hcost hE
      have hmod : (cost n + v) % 65536 = cost n + v :=
        Nat.mod_eq_of_lt (by have := hcost n; omega)
      rw [hmod]
      by_cases hlt : cost n + v < f n
      · rw [if_pos hlt]
        obtain ⟨hle, hB2, hQ2, hE2, hC2⟩ :=
          relax_write_step cost s c0 v r f nx n hnmem hpass hB hQ hE hC hlt
        obtain ⟨ih1, ih2, ih3, ih4, ih5, ih6, ih7, ih8, ih9⟩ :=
          ih (Function.update f n (cost n + v)) (nx ++ [(n, cost n + v)])
            hsubr hB2 hQ2 hE2 hC2
        refine ⟨fun x => le_trans (ih1 x) (hle x), ih2, ih3, ih4, ih5,
          ?_, ?_, ?_, ?_⟩
        · intro m hm hmp
          rcases List.mem_cons.mp hm with rfl | hm
          · calc (IntegrationFields.relaxList cost v rest
                  (Function.update f m (cost m + v))
                  (nx ++ [(m, cost m + v)])).1 m
                ≤ Function.update f m (cost m + v) m := ih1 m
              _ = cost m + v := Function.update_same _ _ _
          · exact ih6 m hm hmp
        · obtain ⟨d, hd⟩ := ih7
          exact ⟨(n, cost n + v) :: d, by rw [hd]; simp⟩
        · exact le_trans ih8 (le_of_lt (totalSum_update_lt f n _ hlt))
        · intro _
          exact lt_of_le_of_lt ih8 (totalSum_update_lt f n _ hlt)
      · rw [if_neg hlt]
        obtain ⟨ih1, ih2, ih3, ih4, ih5, ih6, ih7, ih8, ih9⟩ :=
          ih f nx hsubr hB hQ hE hC
        refine ⟨ih1, ih2, ih3, ih4, ih5, ?_, ih7, ih8, ih9⟩
        intro m hm hmp
        rcases List.mem_cons.mp hm with rfl | hm
        · exact le_trans (ih1 m) (by omega)
        · exact ih6 m hm hmp
    · rw [if_neg hpass]
      obtain ⟨ih1, ih2, ih3, ih4, ih5, ih6, ih7, ih8, ih9⟩ :=
        ih f nx hsubr hB hQ hE hC
      refine ⟨ih1, ih2, ih3, ih4, ih5, ?_, ih7, ih8, ih9⟩
      intro m hm hmp
      rcases List.mem_cons.mp hm with rfl | hm
      · exact absurd hmp hpass
      · exact ih6 m hm hmp

set_option maxRecDepth 8000 in
/-- One full pass preserves the invariants: the produced field dominates
nothing it should not, the produced queue is justified and protects every
dirty cell, the next queue only grows out of `nx`, and any growth witnesses
a strict decrease of the field total. -/
theorem runPass_inv (cost : CostF) (s : Cell) (hcost : ∀ c, cost c ≤ 255) :
    ∀ (q : Queue) (f : Field10) (nx : Queue),
      Basic cost s f →
      QOk cost s f (q ++ nx) →
      CleanQ cost s f (q ++ nx) →
      (∀ x, (IntegrationFields.runPass cost q f nx).1 x ≤ f x) ∧
      Basic cost s (IntegrationFields.runPass cost q f nx).1 ∧
      QOk cost s (IntegrationFields.runPass cost q f nx).1
        (IntegrationFields.runPass cost q f nx).2 ∧
      CleanQ cost s (IntegrationFields.runPass cost q f nx).1
        (IntegrationFields.runPass cost q f nx).2 ∧
      (∃ d, (IntegrationFields.runPass cost q f nx).2 = nx ++ d) ∧
      IntegrationFields.totalSum (IntegrationFields.runPass cost q f nx).1
        ≤ IntegrationFields.totalSum f ∧
      ((IntegrationFields.runPass cost q f nx).2 ≠ nx →
        IntegrationFields.totalSum (IntegrationFields.runPass cost q f nx).1
          < IntegrationFields.totalSum f) := by
  intro q
  induction q with
  | nil =>
    intro f nx hB hQ hC
    rw [List.nil_append] at hQ hC
    simp only [IntegrationFields.runPass]
    exact ⟨fun x => le_refl _, hB, hQ, hC, ⟨[], by simp⟩, le_refl _,
      fun h => absurd rfl h⟩
  | cons p rest ih =>
    obtain ⟨c0, v⟩ := p
    intro f nx hB hQ hC
    have hE : entryOk cost s f (c0, v) :=
      hQ (c0, v) (by simp)
    have hQr : QOk cost s f (rest ++ nx) :=
      fun p hp => hQ p (by simp only [List.cons_append, List.mem_cons]; tauto)
    have hCX : CleanX cost s f (rest ++ nx) c0 v := by
      intro c hc nb hnb hnbp
      rcases hC c hc nb hnb hnbp with h | h
      · left; exact h
      · rw [List.cons_append, List.mem_cons] at h
        rcases h with h | h
        · right; right
          have h1 : c = c0 := congrArg Prod.fst h
          have h2 : f c = v := congrArg Prod.snd h
          exact ⟨h1, h2⟩
        · right; left; exact h
    have hmain := relaxList_inv cost s hcost c0 v rest
      (Ordinal10.get_cell_neighbours c0) f nx (fun n hn => hn) hB hQr hE hCX
    simp only [IntegrationFields.runPass]
    generalize hst : IntegrationFields.relaxList cost v
      (Ordinal10.get_cell_neighbours c0) f nx = st at hmain ⊢
    obtain ⟨f1, nx1⟩ := st
    obtain ⟨le1, B1, Q1, E1, C1x, hrel, ⟨d, hd⟩, hsle, hslt⟩ := hmain
    dsimp only at le1 B1 Q1 E1 C1x hrel hd hsle hslt ⊢
    have hClean1 : CleanQ cost s f1 (rest ++ nx1) := by
      intro c hc nb hnb hnbp
      rcases C1x c hc nb hnb hnbp with h | h | h
      · left; exact h
      · right; exact h
      · left
        obtain ⟨rfl, hv⟩ := h
        rw [hv]
        exact hrel nb hnb hnbp
    obtain ⟨le2, B2, Q2, C2, ⟨d2, hd2⟩, hsle2, hslt2⟩ :=
      ih f1 nx1 B1 Q1 hClean1
    refine ⟨fun x => le_trans (le2 x) (le1 x), B2, Q2, C2, ?_, ?_, ?_⟩
    · exact ⟨d ++ d2, by rw [hd2, hd]; simp⟩
    · exact le_trans hsle2 hsle
    · intro hne
      by_cases hstep : nx1 = nx
      · subst hstep
        exact lt_of_lt_of_le (hslt2 hne) hsle
      · exact lt_of_le_of_lt hsle2 (hslt hstep)

/-- Unconditional bookkeeping for the inner loop: the field only decreases,
the queue only grows, and any queue growth strictly decreases the total. -/
theorem relaxList_sum (cost : CostF) (v : ℕ) :
    ∀ (ns : List Cell) (f : Field10) (nx : Queue),
      (∀ x, (IntegrationFields.relaxList cost v ns f nx).1 x ≤ f x) ∧
      (∃ d, (IntegrationFields.relaxList cost v ns f nx).2 = nx ++ d) ∧
      IntegrationFields.totalSum (IntegrationFields.relaxList cost v ns f nx).1
        ≤ IntegrationFields.totalSum f ∧
      ((IntegrationFields.relaxList cost v ns f nx).2 ≠ nx →
        IntegrationFields.totalSum
          (IntegrationFields.relaxList cost v ns f nx).1
          < IntegrationFields.totalSum f) := by
  intro ns
  induction ns with
  | nil =>
    intro f nx
    simp only [IntegrationFields.relaxList]
    exact ⟨fun x => le_refl _, ⟨[], by simp⟩, le_refl _, fun h => absurd rfl h⟩
  | cons n rest ih =>
    intro f nx
    simp only [IntegrationFields.relaxList]
    by_cases hpass : cost n ≠ 255
    · rw [if_pos hpass]
      by_cases hlt : (cost n + v) % 65536 < f n
      · rw [if_pos hlt]
        obtain ⟨ih1, ⟨d, hd⟩, ih3, ih4⟩ :=
          ih (Function.update f n ((cost n + v) % 65536))
            (nx ++ [(n, (cost n + v) % 65536)])
        have hupd : ∀ x, Function.update f n ((cost n + v) % 65536) x ≤ f x := by
          intro x
          by_cases hx : x = n
          · subst hx; rw [Function.update_same]; exact le_of_lt hlt
          · rw [Function.update_noteq hx]
        have hlt2 := totalSum_update_lt f n _ hlt
        refine ⟨fun x => le_trans (ih1 x) (hupd x),
          ⟨(n, (cost n + v) % 65536) :: d, by rw [hd]; simp⟩,
          le_trans ih3 (le_of_lt hlt2), fun _ => lt_of_le_of_lt ih3 hlt2⟩
      · rw [if_neg hlt]
        exact ih f nx
    · rw [if_neg hpass]
      exact ih f nx

/-- Unconditional bookkeeping for one full pass. -/
theorem runPass_sum (cost : CostF) :
    ∀ (q : Queue) (f : Field10) (nx : Queue),
      (∀ x, (IntegrationFields.runPass cost q f nx).1 x ≤ f x) ∧
      (∃ d, (IntegrationFields.runPass cost q f nx).2 = nx ++ d) ∧
      IntegrationFields.totalSum (IntegrationFields.runPass cost q f nx).1
        ≤ IntegrationFields.totalSum f ∧
      ((IntegrationFields.runPass cost q f nx).2 ≠ nx →
        IntegrationFields.totalSum (IntegrationFields.runPass cost q f nx).1
          < IntegrationFields.totalSum f) := by
  intro q
  induction q with
  | nil =>
    intro f nx
    simp only [IntegrationFields.runPass]
    exact ⟨fun x => le_refl _, ⟨[], by simp⟩, le_refl _, fun h => absurd rfl h⟩
  | cons p rest ih =>
    obtain ⟨c0, v⟩ := p
    intro f nx
    have hmain := relaxList_sum cost v (Ordinal10.get_cell_neighbours c0) f nx
    simp only [IntegrationFields.runPass]
    generalize hst : IntegrationFields.relaxList cost v
      (Ordinal10.get_cell_neighbours c0) f nx = st at hmain ⊢
    obtain ⟨f1, nx1⟩ := st
    obtain ⟨le1, ⟨d, hd⟩, hsle, hslt⟩ := hmain
    dsimp only at le1 hd hsle hslt ⊢
    obtain ⟨le2, ⟨d2, hd2⟩, hsle2, hslt2⟩ := ih f1 nx1
    refine ⟨fun x => le_trans (le2 x) (le1 x),
      ⟨d ++ d2, by rw [hd2, hd]; simp⟩, le_trans hsle2 hsle, ?_⟩
    intro hne
    by_cases hstep : nx1 = nx
    · subst hstep
      exact lt_of_lt_of_le (hslt2 hne) hsle
    · exact lt_of_le_of_lt hsle2 (hslt hstep)

/-- At the end of the recursion the field satisfies all invariants and no
passable edge can relax any touched cell further. -/
theorem process_inv (cost : CostF) (s : Cell) (hcost : ∀ c, cost c ≤ 255) :
    ∀ (fuel : ℕ) (f : Field10) (q : Queue),
      IntegrationFields.totalSum f < fuel →
      Basic cost s f → QOk cost s f q → CleanQ cost s f q →
      (∀ x, IntegrationFields.process_neighbours cost fuel f q x ≤ f x) ∧
      Basic cost s (IntegrationFields.process_neighbours cost fuel f q) ∧
      Relaxed cost (IntegrationFields.process_neighbours cost fuel f q) := by
  intro fuel
  induction fuel with
  | zero =>
    intro f q hfuel
    omega
  | succ fuel ih =>
    intro f q hfuel hB hQ hC
    have hQa : QOk cost s f (q ++ []) := by rw [List.append_nil]; exact hQ
    have hCa : CleanQ cost s f (q ++ []) := by rw [List.append_nil]; exact hC
    have hmain := runPass_inv cost s hcost q f [] hB hQa hCa
    simp only [IntegrationFields.process_neighbours]
    generalize hst : IntegrationFields.runPass cost q f [] = st at hmain ⊢
    obtain ⟨f1, q1⟩ := st
    obtain ⟨le1, B1, Q1, C1q, ⟨d, hd⟩, hsle, hslt⟩ := hmain
    dsimp only at le1 B1 Q1 C1q hd hsle hslt ⊢
    by_cases hq1 : q1 = []
    · rw [if_pos hq1]
      subst hq1
      refine ⟨le1, B1, ?_⟩
      intro c hc nb hnb hnp
      rcases C1q c hc nb hnb hnp with h | h
      · exact h
      · exact absurd h (List.not_mem_nil _)
    · rw [if_neg hq1]
      have hs1 : IntegrationFields.totalSum f1 < fuel := by
        have := hslt hq1
        omega
      obtain ⟨le2, B2, R2⟩ := ih f1 q1 hs1 B1 Q1 C1q
      exact ⟨fun x => le_trans (le2 x) (le1 x), B2, R2⟩

/-- Any two sufficient fuels compute the same final field: the recursion of
the source terminates on its own. -/
theorem process_fuel_irrel (cost : CostF) :
    ∀ (k fuel1 fuel2 : ℕ) (f : Field10) (q : Queue),
      IntegrationFields.totalSum f ≤ k →
      IntegrationFields.totalSum f < fuel1 →
      IntegrationFields.totalSum f < fuel2 →
      IntegrationFields.process_neighbours cost fuel1 f q
        = IntegrationFields.process_neighbours cost fuel2 f q := by
  intro k
  induction k with
  | zero =>
    intro fuel1 fuel2 f q hk h1 h2
    obtain ⟨g1, rfl⟩ := Nat.exists_eq_succ_of_ne_zero (by omega : fuel1 ≠ 0)
    obtain ⟨g2, rfl⟩ := Nat.exists_eq_succ_of_ne_zero (by omega : fuel2 ≠ 0)
    have hmain := runPass_sum cost q f []
    simp only [IntegrationFields.process_neighbours]
    generalize hst : IntegrationFields.runPass cost q f [] = st at hmain ⊢
    obtain ⟨f1, q1⟩ := st
    obtain ⟨-, -, -, hslt⟩ := hmain
    dsimp only at hslt ⊢
    by_cases hq1 : q1 = []
    · rw [if_pos hq1, if_pos hq1]
    · have := hslt hq1
      omega
  | succ k ih =>
    intro fuel1 fuel2 f q hk h1 h2
    obtain ⟨g1, rfl⟩ := Nat.exists_eq_succ_of_ne_zero (by omega : fuel1 ≠ 0)
    obtain ⟨g2, rfl⟩ := Nat.exists_eq_succ_of_ne_zero (by omega : fuel2 ≠ 0)
    have hmain := runPass_sum cost q f []
    simp only [IntegrationFields.process_neighbours]
    generalize hst : IntegrationFields.runPass cost q f [] = st at hmain ⊢
    obtain ⟨f1, q1⟩ := st
    obtain ⟨-, -, hsle, hslt⟩ := hmain
    dsimp only at hsle hslt ⊢
    by_cases hq1 : q1 = []
    · rw [if_pos hq1, if_pos hq1]
    · rw [if_neg hq1, if_neg hq1]
      have := hslt hq1
      exact ih g1 g2 f1 q1 (by omega) (by omega) (by omega)

/-- Unfolding `calculate_fields` into its initial pass and recursion. -/
theorem calculate_fields_eq (f : Field10) (s : Cell) (cost : CostF) :
    IntegrationFields.calculate_fields f s cost
      = (if cost s ≠ 255 then
          IntegrationFields.process_neighbours cost
            (IntegrationFields.totalSum
              (IntegrationFields.relaxList cost (f s)
                (Ordinal10.get_cell_neighbours s) f []).1 + 1)
            (IntegrationFields.relaxList cost (f s)
              (Ordinal10.get_cell_neighbours s) f []).1
            (IntegrationFields.relaxList cost (f s)
              (Ordinal10.get_cell_neighbours s) f []).2
        else
          IntegrationFields.process_neighbours cost
            (IntegrationFields.totalSum f + 1) f []) := by
  simp only [IntegrationFields.calculate_fields]
  by_cases hs : cost s ≠ 255
  · rw [if_pos hs, if_pos hs]
  · rw [if_neg hs, if_neg hs]

/-- The recursion on an empty queue returns the field unchanged. -/
theorem process_empty (cost : CostF) (k : ℕ) (f : Field10) :
    IntegrationFields.process_neighbours cost (k + 1) f [] = f := by
  simp only [IntegrationFields.process_neighbours, IntegrationFields.runPass]
  simp

/-- With an impassable source cell the solver does nothing at all. -/
theorem calculate_fields_impassable (f : Field10) (s : Cell) (cost : CostF)
    (hs : cost s = 255) :
    IntegrationFields.calculate_fields f s cost = f := by
  rw [calculate_fields_eq, if_neg (fun h => h hs), process_empty]

/-- A duplicate-free walk costs at most `99 * 254`. -/
theorem walk_cost_le_of_nodup (cost : CostF) (s : Cell) (l : List Cell)
    (hcost : ∀ c, cost c ≤ 255) (hok : walkOk cost s l)
    (hnd : (s :: l).Nodup) : wCost cost l ≤ 25146 := by
  have hlen : l.length ≤ 99 := by
    have hcard : (s :: l).length ≤ Fintype.card Cell := hnd.length_le_card
    have : Fintype.card Cell = 100 := by simp [Fintype.card_prod]
    rw [this] at hcard
    simpa using hcard
  have heach : ∀ x ∈ l.map cost, x ≤ 254 := by
    intro x hx
    obtain ⟨a, ha, rfl⟩ := List.mem_map.mp hx
    have h255 := walkOk_cells cost l s hok a ha
    have := hcost a
    omega
  have hsum : (l.map cost).sum ≤ (l.map cost).length • 254 :=
    List.sum_le_card_nsmul _ _ heach
  simp only [wCost]
  have hlm : (l.map cost).length = l.length := List.length_map _ _
  calc (l.map cost).sum ≤ (l.map cost).length • 254 := hsum
    _ = (l.map cost).length * 254 := by rw [smul_eq_mul]
    _ ≤ 99 * 254 := by rw [hlm]; exact Nat.mul_le_mul_right _ hlen
    _ = 25146 := by norm_num

/-- The main-case postcondition: starting from the reset field with a
passable source, the final field satisfies `Basic` and `Relaxed`. -/
theorem calculate_fields_main (cost : CostF) (s : Cell) (f : Field10)
    (hcost : ∀ c, cost c ≤ 255) (hs : cost s ≠ 255)
    (hf : ∀ c, f c = if c = s then 0 else 65535) :
    Basic cost s (IntegrationFields.calculate_fields f s cost) ∧
    Relaxed cost (IntegrationFields.calculate_fields f s cost) := by
  have hfs : f s = 0 := by rw [hf]; simp
  have hB : Basic cost s f := by
    refine ⟨hfs, ?_, ?_⟩
    · intro c; rw [hf]; split <;> omega
    · intro c hcs hc
      rw [hf, if_neg hcs] at hc
      exact absurd rfl hc
  have hE : entryOk cost s f (s, f s) := by
    refine ⟨[], trivial, rfl, by simp [wCost, hfs], by simp, ?_⟩
    intro t1 t2 ht
    obtain ⟨rfl, -⟩ := List.append_eq_nil.mp ht.symm
    simp [wEnd, wCost, hfs]
  have hQ : QOk cost s f ([] ++ []) := fun p hp => absurd hp (List.not_mem_nil _)
  have hCX : CleanX cost s f ([] ++ []) s (f s) := by
    intro c hc nb hnb hnp
    by_cases hcs : c = s
    · subst hcs
      right; right
      exact ⟨rfl, rfl⟩
    · rw [hf, if_neg hcs] at hc
      exact absurd rfl hc
  have hmain := relaxList_inv cost s hcost s (f s) []
    (Ordinal10.get_cell_neighbours s) f [] (fun n hn => hn) hB hQ hE hCX
  rw [calculate_fields_eq, if_pos hs]
  generalize hst : IntegrationFields.relaxList cost (f s)
    (Ordinal10.get_cell_neighbours s) f [] = st at hmain ⊢
  obtain ⟨f1, q1⟩ := st
  obtain ⟨le1, B1, Q1, E1, C1x, hrel, -, -, -⟩ := hmain
  dsimp only at le1 B1 Q1 E1 C1x hrel ⊢
  rw [List.nil_append] at Q1 C1x
  have hClean1 : CleanQ cost s f1 q1 := by
    intro c hc nb hnb hnbp
    rcases C1x c hc nb hnb hnbp with h | h | h
    · left; exact h
    · right; exact h
    · left
      obtain ⟨rfl, hv⟩ := h
      rw [hv]
      exact hrel nb hnb hnbp
  obtain ⟨le2, B2, R2⟩ := process_inv cost s hcost
    (IntegrationFields.totalSum f1 + 1) f1 q1 (by omega) B1 Q1 hClean1
  exact ⟨B2, R2⟩

/-- Completeness: the final field is below the cost of every valid walk
whose total cost stays inside the 16-bit range. -/
theorem final_le_walk (cost : CostF) (s : Cell) (F : Field10)
    (hB : Basic cost s F) (hR : Relaxed cost F) :
    ∀ (l : List Cell), walkOk cost s l → wCost cost l ≤ 65534 →
      F (wEnd s l) ≤ wCost cost l := by
  intro l
  induction l using List.reverseRecOn with
  | nil =>
    intro _ _
    simp [wEnd, wCost, hB.src]
  | append_singleton t n ih =>
    intro hok hle
    rw [walkOk_concat] at hok
    obtain ⟨hokt, hn, hnp⟩ := hok
    have hct : wCost cost t ≤ 65534 := by
      rw [wCost_append] at hle
      omega
    have iht := ih hokt hct
    have hact : F (wEnd s t) ≠ 65535 := by omega
    have := hR (wEnd s t) hact n hn hnp
    rw [wEnd_concat, wCost_append]
    simp only [wCost, List.map_cons, List.map_nil, List.sum_cons, List.sum_nil]
    have hbf : wCost cost t = (t.map cost).sum := rfl
    omega

/-- C1: after `reset(source)` and `calculate_fields(source, cost_field)`,
every cell reachable from the source through 4-connected non-impassable
cells holds the least sum, over all such walks, of the destination-cell
costs (the source's own cost excluded), and every unreachable cell still
holds `65535`. -/
theorem claim_C1_wavefront_shortest (cost : CostF) (s : Cell) (f : Field10)
    (hcost : ∀ c, cost c ≤ 255)
    (hf : ∀ c, f c = if c = s then 0 else 65535) :
    ∀ c : Cell,
      (Reaches cost s c →
        IsLeast (reachCosts cost s c)
          (IntegrationFields.calculate_fields f s cost c)) ∧
      (¬ Reaches cost s c →
        IntegrationFields.calculate_fields f s cost c = 65535) := by
  by_cases hs : cost s = 255
  · rw [calculate_fields_impassable f s cost hs]
    intro c
    constructor
    · intro hreach
      obtain ⟨l, hok, hne, hend⟩ := hreach
      have hl : l = [] := by
        by_contra hlne
        exact (hne hlne) hs
      subst hl
      rw [wEnd_nil] at hend
      subst hend
      have hfs : f s = 0 := by rw [hf]; simp
      rw [hfs]
      constructor
      · exact ⟨[], trivial, fun h => absurd rfl h, rfl, rfl⟩
      · intro n _
        omega
    · intro hnr
      have hcs : c ≠ s := by
        intro h
        exact hnr (h ▸ ⟨[], trivial, fun hh => absurd rfl hh, rfl⟩)
      rw [hf, if_neg hcs]
  · obtain ⟨hB, hR⟩ := calculate_fields_main cost s f hcost hs hf
    intro c
    constructor
    · intro hreach
      obtain ⟨l0, hok0, -, hend0⟩ := hreach
      obtain ⟨l2, hok2, hend2, -, hnd2⟩ := walk_prune cost s l0 hok0
      have hb2 : wCost cost l2 ≤ 25146 :=
        walk_cost_le_of_nodup cost s l2 hcost hok2 hnd2
      have hFle : IntegrationFields.calculate_fields f s cost c
          ≤ wCost cost l2 := by
        rw [← hend0, ← hend2]
        exact final_le_walk cost s _ hB hR l2 hok2 (by omega)
      have hFne : IntegrationFields.calculate_fields f s cost c ≠ 65535 := by
        omega
      constructor
      · by_cases hcs : c = s
        · rw [hcs, hB.src]
          exact ⟨[], trivial, fun _ => hs, rfl, rfl⟩
        · obtain ⟨l, -, hok, hend, hcv⟩ := hB.sound c hcs hFne
          exact ⟨l, hok, fun _ => hs, hend, hcv⟩
      · intro m hm
        obtain ⟨l, hok, -, hend, rfl⟩ := hm
        obtain ⟨l3, hok3, hend3, hc3, hnd3⟩ := walk_prune cost s l hok
        have hb3 := walk_cost_le_of_nodup cost s l3 hcost hok3 hnd3
        have hfin := final_le_walk cost s _ hB hR l3 hok3 (by omega)
        rw [hend3, hend] at hfin
        omega
    · intro hnr
      by_contra hFne
      by_cases hcs : c = s
      · exact hnr (by rw [hcs]; exact ⟨[], trivial, fun _ => hs, rfl⟩)
      · obtain ⟨l, -, hok, hend, -⟩ := hB.sound c hcs hFne
        exact hnr ⟨l, hok, fun _ => hs, hend⟩

/-- Witness for C1 at the uniform cost field and the source of the repo's
`basic_field` test. -/
theorem claim_C1_wavefront_shortest_witness :
    (∀ c : Cell, CostFields.default c ≤ 255) ∧
    ∀ c : Cell,
      (Reaches CostFields.default ((4 : Fin 10), (4 : Fin 10)) c →
        IsLeast (reachCosts CostFields.default ((4 : Fin 10), (4 : Fin 10)) c)
          (IntegrationFields.calculate_fields
            (fun x => if x = ((4 : Fin 10), (4 : Fin 10)) then 0 else 65535)
            ((4 : Fin 10), (4 : Fin 10)) CostFields.default c)) ∧
      (¬ Reaches CostFields.default ((4 : Fin 10), (4 : Fin 10)) c →
        IntegrationFields.calculate_fields
          (fun x => if x = ((4 : Fin 10), (4 : Fin 10)) then 0 else 65535)
          ((4 : Fin 10), (4 : Fin 10)) CostFields.default c = 65535) :=
  ⟨fun _ => by norm_num [CostFields.default],
    claim_C1_wavefront_shortest CostFields.default
      ((4 : Fin 10), (4 : Fin 10)) _
      (fun _ => by norm_num [CostFields.default]) (fun _ => rfl)⟩

/-- Values at impassable cells are never written by the inner loop. -/
theorem relaxList_imp (cost : CostF) (v : ℕ) :
    ∀ (ns : List Cell) (f : Field10) (nx : Queue) (c : Cell), cost c = 255 →
      (IntegrationFields.relaxList cost v ns f nx).1 c = f c := by
  intro ns
  induction ns with
  | nil =>
    intro f nx c _
    simp only [IntegrationFields.relaxList]
  | cons n rest ih =>
    intro f nx c hc
    simp only [IntegrationFields.relaxList]
    by_cases hpass : cost n ≠ 255
    · rw [if_pos hpass]
      by_cases hlt : (cost n + v) % 65536 < f n
      · rw [if_pos hlt]
        rw [ih _ _ c hc]
        exact Function.update_noteq (fun h => hpass (by rw [← h]; exact hc)) _ _
      · rw [if_neg hlt]
        exact ih f nx c hc
    · rw [if_neg hpass]
      exact ih f nx c hc

/-- Values at impassable cells are never written by a pass. -/
theorem runPass_imp (cost : CostF) :
    ∀ (q : Queue) (f : Field10) (nx : Queue) (c : Cell), cost c = 255 →
      (IntegrationFields.runPass cost q f nx).1 c = f c := by
  intro q
  induction q with
  | nil =>
    intro f nx c _
    simp only [IntegrationFields.runPass]
  | cons p rest ih =>
    obtain ⟨c0, v⟩ := p
    intro f nx c hc
    simp only [IntegrationFields.runPass]
    calc (IntegrationFields.runPass cost rest
          (IntegrationFields.relaxList cost v
            (Ordinal10.get_cell_neighbours c0) f nx).1
          (IntegrationFields.relaxList cost v
            (Ordinal10.get_cell_neighbours c0) f nx).2).1 c
        = (IntegrationFields.relaxList cost v
            (Ordinal10.get_cell_neighbours c0) f nx).1 c := ih _ _ c hc
      _ = f c := relaxList_imp cost v _ f nx c hc

/-- Values at impassable cells are never written by the whole recursion. -/
theorem process_imp (cost : CostF) :
    ∀ (fuel : ℕ) (f : Field10) (q : Queue) (c : Cell), cost c = 255 →
      IntegrationFields.process_neighbours cost fuel f q c = f c := by
  intro fuel
  induction fuel with
  | zero =>
    intro f q c _
    simp only [IntegrationFields.process_neighbours]
  | succ fuel ih =>
    intro f q c hc
    have h1 := runPass_imp cost q f [] c hc
    simp only [IntegrationFields.process_neighbours]
    generalize hst : IntegrationFields.runPass cost q f [] = st at h1 ⊢
    obtain ⟨f1, q1⟩ := st
    dsimp only at h1 ⊢
    by_cases hq : q1 = []
    · rw [if_pos hq]
      exact h1
    · rw [if_neg hq]
      calc IntegrationFields.process_neighbours cost fuel f1 q1 c
          = f1 c := ih f1 q1 c hc
        _ = f c := h1

/-- The solver never writes an impassable cell. -/
theorem calculate_fields_imp (f : Field10) (s : Cell) (cost : CostF)
    (c : Cell) (hc : cost c = 255) :
    IntegrationFields.calculate_fields f s cost c = f c := by
  rw [calculate_fields_eq]
  by_cases hs : cost s ≠ 255
  · rw [if_pos hs]
    calc IntegrationFields.process_neighbours cost _
          (IntegrationFields.relaxList cost (f s)
            (Ordinal10.get_cell_neighbours s) f []).1
          (IntegrationFields.relaxList cost (f s)
            (Ordinal10.get_cell_neighbours s) f []).2 c
        = (IntegrationFields.relaxList cost (f s)
            (Ordinal10.get_cell_neighbours s) f []).1 c :=
          process_imp cost _ _ _ c hc
      _ = f c := relaxList_imp cost (f s) _ f [] c hc
  · rw [if_neg hs, process_empty]

/-- C4: for every cost field, in-bounds source and impassable cell `c`,
after reset and `calculate_fields` the cell still holds `65535`, except that
the source cell itself holds `0`; impassable cells are never relaxed. -/
theorem claim_C4_impassable_never_relaxed (cost : CostF) (s : Cell)
    (f : Field10) (hf : ∀ x, f x = if x = s then 0 else 65535) (c : Cell)
    (hc : cost c = 255) :
    IntegrationFields.calculate_fields f s cost c
      = if c = s then 0 else 65535 := by
  rw [calculate_fields_imp f s cost c hc, hf]

/-- Witness for C4: an impassable wall cell next to the source. -/
theorem claim_C4_impassable_never_relaxed_witness :
    IntegrationFields.calculate_fields
      (fun x => if x = ((4 : Fin 10), (4 : Fin 10)) then 0 else 65535)
      ((4 : Fin 10), (4 : Fin 10))
      (CostFields.set_grid_value CostFields.default 255
        ((4 : Fin 10), (5 : Fin 10))) ((4 : Fin 10), (5 : Fin 10))
      = if ((4 : Fin 10), (5 : Fin 10)) = ((4 : Fin 10), (4 : Fin 10))
        then 0 else 65535 :=
  claim_C4_impassable_never_relaxed _ _ _ (fun _ => rfl) _ (by decide)

/-- C6: when the source cell is itself impassable the solver performs no
relaxation: every cell keeps `65535` except the source, which keeps `0`;
the call still returns normally, no error is reported. -/
theorem claim_C6_impassable_source (cost : CostF) (s : Cell) (f : Field10)
    (hs : cost s = 255) (hf : ∀ x, f x = if x = s then 0 else 65535) :
    ∀ c : Cell, IntegrationFields.calculate_fields f s cost c
      = if c = s then 0 else 65535 := by
  intro c
  rw [calculate_fields_impassable f s cost hs, hf]

/-- Witness for C6 at the all-impassable cost field, read at cell `(3,4)`. -/
theorem claim_C6_impassable_source_witness :
    IntegrationFields.calculate_fields
      (fun x => if x = ((4 : Fin 10), (4 : Fin 10)) then 0 else 65535)
      ((4 : Fin 10), (4 : Fin 10)) (fun _ => 255) ((3 : Fin 10), (4 : Fin 10))
      = if ((3 : Fin 10), (4 : Fin 10)) = ((4 : Fin 10), (4 : Fin 10))
        then 0 else 65535 :=
  claim_C6_impassable_source (fun _ => 255) ((4 : Fin 10), (4 : Fin 10)) _
    rfl (fun _ => rfl) ((3 : Fin 10), (4 : Fin 10))

/-- C7: the wavefront terminates on every cost field and queue: a pass that
enqueues anything strictly decreases the total of the stored values, so
iterating passes reaches an empty pass after finitely many steps, and any
sufficient fuel computes the same final field as the fuel the embedding of
`calculate_fields` uses. -/
theorem claim_C7_termination (cost : CostF) (f : Field10) (q : Queue) :
    (∀ (f2 : Field10) (q2 : Queue),
      (IntegrationFields.stepPass cost (f2, q2)).2 ≠ [] →
      IntegrationFields.totalSum (IntegrationFields.stepPass cost (f2, q2)).1
        < IntegrationFields.totalSum f2) ∧
    (∃ n, ((IntegrationFields.stepPass cost)^[n] (f, q)).2 = []) ∧
    ∀ fuel, IntegrationFields.totalSum f < fuel →
      IntegrationFields.process_neighbours cost fuel f q
        = IntegrationFields.process_neighbours cost
            (IntegrationFields.totalSum f + 1) f q := by
  have hdec : ∀ (f2 : Field10) (q2 : Queue),
      (IntegrationFields.stepPass cost (f2, q2)).2 ≠ [] →
      IntegrationFields.totalSum (IntegrationFields.stepPass cost (f2, q2)).1
        < IntegrationFields.totalSum f2 := by
    intro f2 q2 hne
    obtain ⟨-, -, -, hslt⟩ := runPass_sum cost q2 f2 []
    exact hslt hne
  refine ⟨hdec, ?_, ?_⟩
  · have key : ∀ (k : ℕ) (st : Field10 × Queue),
        IntegrationFields.totalSum st.1 ≤ k →
        ∃ n, ((IntegrationFields.stepPass cost)^[n] st).2 = [] := by
      intro k
      induction k with
      | zero =>
        intro st hk
        by_cases hq : (IntegrationFields.stepPass cost st).2 = []
        · exact ⟨1, hq⟩
        · obtain ⟨f2, q2⟩ := st
          have := hdec f2 q2 hq
          simp only at hk
          omega
      | succ k ih =>
        intro st hk
        by_cases hq : (IntegrationFields.stepPass cost st).2 = []
        · exact ⟨1, hq⟩
        · obtain ⟨f2, q2⟩ := st
          have hlt := hdec f2 q2 hq
          obtain ⟨n, hn⟩ := ih (IntegrationFields.stepPass cost (f2, q2))
            (by simp only at hk ⊢; omega)
          exact ⟨n + 1, by rw [Function.iterate_succ_apply]; exact hn⟩
    exact key (IntegrationFields.totalSum f) (f, q) (le_refl _)
  · intro fuel hfuel
    exact process_fuel_irrel cost (IntegrationFields.totalSum f) fuel
      (IntegrationFields.totalSum f + 1) f q (le_refl _) hfuel (by omega)

/-- C3 counterexample: with the complex obstacle field and source `(4,4)`,
the computed integration value at `(9,9)` is `10`, not `65535`: the cell is
not walled off, and the repo's own `complex_field` test expects `10` there. -/
theorem claim_C3_counterexample :
    IntegrationFields.calculate_fields (resetField (4, 4)) (4, 4) complexCost
      ((9 : Fin 10), (9 : Fin 10)) = 10 ∧
    ¬ IntegrationFields.calculate_fields (resetField (4, 4)) (4, 4) complexCost
      ((9 : Fin 10), (9 : Fin 10)) = 65535 := by
  decide!

/-- C3 as amended: with the complex obstacle field and source `(4,4)`, the
four wall cells near the top-left hold `65535`, `(9,9)` holds `10` (not
`65535` as the claim stated), `(0,0)` holds `8`, `(5,5)` holds `2` and
`(4,5)` holds `1`. -/
theorem claim_C3_complex_field_amended :
    IntegrationFields.calculate_fields (resetField (4, 4)) (4, 4) complexCost
      ((1 : Fin 10), (1 : Fin 10)) = 65535 ∧
    IntegrationFields.calculate_fields (resetField (4, 4)) (4, 4) complexCost
      ((1 : Fin 10), (2 : Fin 10)) = 65535 ∧
    IntegrationFields.calculate_fields (resetField (4, 4)) (4, 4) complexCost
      ((2 : Fin 10), (1 : Fin 10)) = 65535 ∧
    IntegrationFields.calculate_fields (resetField (4, 4)) (4, 4) complexCost
      ((2 : Fin 10), (2 : Fin 10)) = 65535 ∧
    IntegrationFields.calculate_fields (resetField (4, 4)) (4, 4) complexCost
      ((9 : Fin 10), (9 : Fin 10)) = 10 ∧
    IntegrationFields.calculate_fields (resetField (4, 4)) (4, 4) complexCost
      ((0 : Fin 10), (0 : Fin 10)) = 8 ∧
    IntegrationFields.calculate_fields (resetField (4, 4)) (4, 4) complexCost
      ((5 : Fin 10), (5 : Fin 10)) = 2 ∧
    IntegrationFields.calculate_fields (resetField (4, 4)) (4, 4) complexCost
      ((4 : Fin 10), (5 : Fin 10)) = 1 := by
  decide!

theorem floor_add_frac (a : ℕ) (q : ℚ) (h0 : 0 ≤ q) (h1 : q < 1) :
    ⌊(a : ℚ) + q⌋ = a := by
  rw [add_comm, Int.floor_add_nat, Int.floor_eq_zero_iff.mpr ⟨h0, h1⟩]
  simp

theorem floor_natCast_div_two (n : ℕ) :
    ⌊((n : ℚ)) / 2⌋ = ((n / 2 : ℕ) : ℤ) := by
  exact_mod_cast Rat.floor_natCast_div_natCast n 2

theorem floor_natCast_mul_half (n : ℕ) :
    ⌊((n : ℚ)) * (1 / 2)⌋ = ((n / 2 : ℕ) : ℤ) := by
  rw [mul_one_div]
  exact floor_natCast_div_two n

theorem abs_sub_add_self (t off : ℚ) (h : 0 ≤ off) : |t - (t + off)| = off := by
  rw [abs_sub_comm]
  have heq : t + off - t = off := by ring
  rw [heq, abs_of_nonneg h]

/-- C2 counterexample: the round-trip law fails on a strictly interior cell.
For sector `(0,0)`, cell `(2,2)` (both components in `[1,8]`) and map
dimensions `(20,20)`, the cell centre maps back to cell `(1,1)`, not
`(2,2)`: `cell_center_world` places the centre at offset `(col+1)*0.5`, so
the floor recovers `(col+1)/2` rather than `col`.  All values involved are
exactly representable in `f32`. -/
theorem claim_C2_roundtrip_counterexample :
    get_sector_and_field_cell_from_xyz
      (get_xyz_from_field_cell_within_sector (0, 0) (2, 2) 20 20) 20 20
      = ((0, 0), (1, 1)) ∧
    (((0, 0), (1, 1)) : (ℕ × ℕ) × (ℕ × ℕ)) ≠ ((0, 0), (2, 2)) := by
  constructor
  · decide!
  · decide

/-- C2 as amended: for every valid sector and field cell, composing
`get_xyz_from_field_cell_within_sector` with
`get_sector_and_field_cell_from_xyz` returns the same sector, and the cell
`((col+1)/2, (row+1)/2)` (integer division); this is the identity on the
cell exactly when both components are at most `1`.  The dimension bounds
keep the source's `i32`/`u32` arithmetic exact. -/
theorem claim_C2_roundtrip_amended (dx dz : ℕ) (s c : ℕ × ℕ)
    (hx10 : dx % 10 = 0) (hz10 : dz % 10 = 0) (hx0 : 0 < dx) (hz0 : 0 < dz)
    (hxb : dx < 2 ^ 31) (hzb : dz < 2 ^ 31)
    (hs1 : s.1 < dx / 10) (hs2 : s.2 < dz / 10)
    (hc1 : c.1 < 10) (hc2 : c.2 < 10) :
    get_sector_and_field_cell_from_xyz
      (get_xyz_from_field_cell_within_sector s c dx dz) dx dz
      = (s, ((c.1 + 1) / 2, (c.2 + 1) / 2)) := by
  obtain ⟨s1, s2⟩ := s
  obtain ⟨c1, c2⟩ := c
  simp only at hs1 hs2 hc1 hc2
  have hc1q : ((c1 : ℚ) + 1) ≤ 10 := by
    have h : ((c1 + 1 : ℕ) : ℚ) ≤ ((10 : ℕ) : ℚ) :=
      Nat.cast_le.mpr (by omega)
    push_cast at h
    linarith
  have hc2q : ((c2 : ℚ) + 1) ≤ 10 := by
    have h : ((c2 + 1 : ℕ) : ℚ) ≤ ((10 : ℕ) : ℚ) :=
      Nat.cast_le.mpr (by omega)
    push_cast at h
    linarith
  have hox : (get_xyz_from_field_cell_within_sector (s1, s2) (c1, c2) dx dz).1
      + ((dx / 2 : ℕ) : ℚ) = (s1 : ℚ) * 10 + ((c1 : ℚ) + 1) / 2 := by
    simp only [get_xyz_from_field_cell_within_sector,
      get_xyz_at_sector_top_left_from_sector_id]
    rw [Int.cast_natCast, Int.cast_natCast]
    push_cast
    ring
  have hoz : (get_xyz_from_field_cell_within_sector (s1, s2) (c1, c2) dx dz).2.2
      + ((dz / 2 : ℕ) : ℚ) = (s2 : ℚ) * 10 + ((c2 : ℚ) + 1) / 2 := by
    simp only [get_xyz_from_field_cell_within_sector,
      get_xyz_at_sector_top_left_from_sector_id]
    rw [Int.cast_natCast, Int.cast_natCast]
    push_cast
    ring
  have hfx : ⌊((s1 : ℚ) * 10 + ((c1 : ℚ) + 1) / 2) / 10⌋ = s1 := by
    have heq : ((s1 : ℚ) * 10 + ((c1 : ℚ) + 1) / 2) / 10
        = (s1 : ℚ) + ((c1 : ℚ) + 1) / 20 := by ring
    rw [heq]
    exact floor_add_frac s1 _ (by positivity) (by linarith)
  have hfz : ⌊((s2 : ℚ) * 10 + ((c2 : ℚ) + 1) / 2) / 10⌋ = s2 := by
    have heq : ((s2 : ℚ) * 10 + ((c2 : ℚ) + 1) / 2) / 10
        = (s2 : ℚ) + ((c2 : ℚ) + 1) / 20 := by ring
    rw [heq]
    exact floor_add_frac s2 _ (by positivity) (by linarith)
  have hsec : get_sector_id_from_xyz
      (get_xyz_from_field_cell_within_sector (s1, s2) (c1, c2) dx dz) dx dz
      = (s1, s2) := by
    simp only [get_sector_id_from_xyz, hox, hoz, hfx, hfz]
    rw [Int.toNat_natCast, Int.toNat_natCast, if_neg (by omega),
      if_neg (by omega)]
  have hcell : get_field_cell_from_xyz
      (get_xyz_from_field_cell_within_sector (s1, s2) (c1, c2) dx dz) (s1, s2)
      dx dz = ((c1 + 1) / 2, (c2 + 1) / 2) := by
    simp only [get_field_cell_from_xyz, get_xyz_from_field_cell_within_sector]
    rw [abs_sub_add_self _ _ (by positivity),
      abs_sub_add_self _ _ (by positivity)]
    rw [floor_natCast_mul_half, floor_natCast_mul_half,
      Int.toNat_natCast, Int.toNat_natCast]
    rw [if_neg (by omega), if_neg (by omega)]
  simp only [get_sector_and_field_cell_from_xyz, hsec, hcell]

/-- Witness for the amended C2 at sector `(1,1)`, cell `(1,1)`, dims
`(30,30)` (a cell on which the round-trip really is the identity). -/
theorem claim_C2_roundtrip_amended_witness :
    get_sector_and_field_cell_from_xyz
      (get_xyz_from_field_cell_within_sector (1, 1) (1, 1) 30 30) 30 30
      = ((1, 1), ((1 + 1) / 2, (1 + 1) / 2)) :=
  claim_C2_roundtrip_amended 30 30 (1, 1) (1, 1) (by decide) (by decide)
    (by decide) (by decide) (by decide) (by decide) (by decide) (by decide)
    (by decide) (by decide)

/-- C8 counterexample: for a position beyond the negative map border the
claimed formula produces `-1` while the code's `f32 → u32` cast saturates at
zero, so the function returns sector column `0`. -/
theorem claim_C8_sector_id_counterexample :
    get_sector_id_from_xyz (-15, 0, -15) 20 20 = (0, 0) ∧
    spec_sector_coord (-15) 20 = -1 ∧
    ¬ (((get_sector_id_from_xyz (-15, 0, -15) 20 20).1 : ℤ)
        = spec_sector_coord (-15) 20) := by
  refine ⟨by decide!, by decide!, by decide!⟩

/-- C8 as amended: for positive map dimensions that are multiples of 10,
each component of `get_sector_id_from_xyz` is the claim's
`floor((position + dim/2) / 10)` clamped above to `count - 1`, additionally
saturated at zero (the `as u32` cast); the four concrete corner positions
behave as the claim lists. -/
theorem claim_C8_sector_id_amended :
    (∀ (position : Vec3Q) (dx dz : ℕ),
      dx % 10 = 0 → dz % 10 = 0 → 0 < dx → 0 < dz →
      get_sector_id_from_xyz position dx dz
        = ((spec_sector_coord position.1 dx).toNat,
           (spec_sector_coord position.2.2 dz).toNat)) ∧
    get_sector_id_from_xyz (-5, 0, -5) 20 20 = (0, 0) ∧
    get_sector_id_from_xyz (5, 0, -5) 20 20 = (1, 0) ∧
    get_sector_id_from_xyz (5, 0, 5) 20 20 = (1, 1) ∧
    get_sector_id_from_xyz (-5, 0, 5) 20 20 = (0, 1) := by
  refine ⟨?_, by decide!, by decide!, by decide!, by decide!⟩
  intro position dx dz hx10 hz10 hx0 hz0
  have hcx : 1 ≤ dx / 10 := by omega
  have hcz : 1 ≤ dz / 10 := by omega
  unfold get_sector_id_from_xyz spec_sector_coord
  dsimp only
  rw [Prod.mk.injEq]
  constructor
  · generalize ⌊(position.1 + ((dx / 2 : ℕ) : ℚ)) / 10⌋ = d
    rw [Int.min_def]
    split_ifs <;> omega
  · generalize ⌊(position.2.2 + ((dz / 2 : ℕ) : ℚ)) / 10⌋ = d
    rw [Int.min_def]
    split_ifs <;> omega

/-- Witness for the amended C8 general formula at a concrete position. -/
theorem claim_C8_sector_id_amended_witness :
    get_sector_id_from_xyz (5, 0, 5) 20 20
      = ((spec_sector_coord 5 20).toNat, (spec_sector_coord 5 20).toNat) :=
  claim_C8_sector_id_amended.1 (5, 0, 5) 20 20 (by decide) (by decide)
    (by decide) (by decide)

theorem sector_filter_singleton (dx dz : ℕ) (o : OrdinalDir) (u v : ℤ)
    (x : ℕ × ℕ) (cond : Prop) [Decidable cond]
    (h1 : cond ↔ (0 ≤ u ∧ u < ((dx / 10 : ℕ) : ℤ) ∧ 0 ≤ v ∧
      v < ((dz / 10 : ℕ) : ℤ)))
    (h2 : (u.toNat, v.toNat) = x) :
    (List.filter
      (fun p => decide (0 ≤ p.2.1) && decide (p.2.1 < ((dx / 10 : ℕ) : ℤ))
        && decide (0 ≤ p.2.2) && decide (p.2.2 < ((dz / 10 : ℕ) : ℤ)))
      [(o, (u, v))]).map (fun q => (q.1, (q.2.1.toNat, q.2.2.toNat)))
      = (if cond then [(o, x)] else []) := by
  rw [List.filter_singleton]
  by_cases hc : cond
  · have hb : (decide (0 ≤ u) && decide (u < ((dx / 10 : ℕ) : ℤ))
        && decide (0 ≤ v) && decide (v < ((dz / 10 : ℕ) : ℤ))) = true := by
      simp only [Bool.and_eq_true, decide_eq_true_eq]
      have := h1.mp hc
      tauto
    rw [if_pos hc]
    simp only [hb, cond_true, List.map_cons, List.map_nil]
    rw [h2]
  · have hb : (decide (0 ≤ u) && decide (u < ((dx / 10 : ℕ) : ℤ))
        && decide (0 ≤ v) && decide (v < ((dz / 10 : ℕ) : ℤ))) = false := by
      rw [← Bool.not_eq_true]
      intro hcon
      simp only [Bool.and_eq_true, decide_eq_true_eq] at hcon
      exact hc (h1.mpr (by tauto))
    rw [if_neg hc, hb]
    simp

/-- C9: for every sector id inside the sector grid, the neighbouring-sector
derivation returns exactly the in-bounds candidates of the ordered list
(North, East, South, West), out-of-bounds candidates silently omitted and
the surviving subset keeping that order; in particular sector `(5,7)` on a
200x200 map yields all four neighbours in (N, E, S, W) order and corner
`(0,0)` yields `[(East,(1,0)), (South,(0,1))]`. -/
theorem claim_C9_sector_neighbours :
    (∀ (sector_id : ℕ × ℕ) (dx dz : ℕ),
      get_ordinal_and_ids_of_neighbouring_sectors sector_id dx dz
        = (([(OrdinalDir.North, ((sector_id.1 : ℤ), (sector_id.2 : ℤ) - 1)),
            (OrdinalDir.East, ((sector_id.1 : ℤ) + 1, (sector_id.2 : ℤ))),
            (OrdinalDir.South, ((sector_id.1 : ℤ), (sector_id.2 : ℤ) + 1)),
            (OrdinalDir.West,
              ((sector_id.1 : ℤ) - 1, (sector_id.2 : ℤ)))].filter
            (fun p => decide (0 ≤ p.2.1) &&
              decide (p.2.1 < ((dx / 10 : ℕ) : ℤ)) && decide (0 ≤ p.2.2) &&
              decide (p.2.2 < ((dz / 10 : ℕ) : ℤ)))).map
            (fun p => (p.1, (p.2.1.toNat, p.2.2.toNat))))) ∧
    get_ordinal_and_ids_of_neighbouring_sectors (5, 7) 200 200
      = [(OrdinalDir.North, (5, 6)), (OrdinalDir.East, (6, 7)),
         (OrdinalDir.South, (5, 8)), (OrdinalDir.West, (4, 7))] ∧
    get_ordinal_and_ids_of_neighbouring_sectors (0, 0) 200 200
      = [(OrdinalDir.East, (1, 0)), (OrdinalDir.South, (0, 1))] := by
  refine ⟨?_, by decide, by decide⟩
  intro sector_id dx dz

  obtain ⟨a, b⟩ := sector_id
  have hsplit : ([(OrdinalDir.North, ((a : ℤ), (b : ℤ) - 1)),
      (OrdinalDir.East, ((a : ℤ) + 1, (b : ℤ))),
      (OrdinalDir.South, ((a : ℤ), (b : ℤ) + 1)),
      (OrdinalDir.West, ((a : ℤ) - 1, (b : ℤ)))]
      : List (OrdinalDir × (ℤ × ℤ)))
      = [(OrdinalDir.North, ((a : ℤ), (b : ℤ) - 1))]
        ++ ([(OrdinalDir.East, ((a : ℤ) + 1, (b : ℤ)))]
        ++ ([(OrdinalDir.South, ((a : ℤ), (b : ℤ) + 1))]
        ++ [(OrdinalDir.West, ((a : ℤ) - 1, (b : ℤ)))])) := rfl
  rw [hsplit, List.filter_append, List.filter_append, List.filter_append,
    List.map_append, List.map_append, List.map_append]
  rw [sector_filter_singleton dx dz OrdinalDir.North (a : ℤ) ((b : ℤ) - 1)
      (a, b - 1) (1 ≤ b ∧ a < dx / 10 ∧ b - 1 < dz / 10) (by omega)
      (by simp only [Prod.mk.injEq]; omega),
    sector_filter_singleton dx dz OrdinalDir.East ((a : ℤ) + 1) (b : ℤ)
      (a + 1, b) (a + 1 < dx / 10 ∧ b < dz / 10) (by omega)
      (by simp only [Prod.mk.injEq]; omega),
    sector_filter_singleton dx dz OrdinalDir.South (a : ℤ) ((b : ℤ) + 1)
      (a, b + 1) (b + 1 < dz / 10 ∧ a < dx / 10) (by omega)
      (by simp only [Prod.mk.injEq]; omega),
    sector_filter_singleton dx dz OrdinalDir.West ((a : ℤ) - 1) (b : ℤ)
      (a - 1, b) (1 ≤ a ∧ a - 1 < dx / 10 ∧ b < dz / 10) (by omega)
      (by simp only [Prod.mk.injEq]; omega)]
  simp only [get_ordinal_and_ids_of_neighbouring_sectors,
    get_sector_neighbours_with_ordinal, List.append_assoc]
